import Mathlib

/-!
Verification of the pos-cam image pipeline (src/app.js, with src/unnamed/part_000
an earlier variant containing the same `atkinsonDither`).

The pixel buffer (an `ImageData.data` `Uint8ClampedArray`) is modelled as a
`List ℕ` of byte values in row-major RGBA order.  JavaScript numbers are
modelled as exact rationals (`ℚ`); for the arithmetic this pipeline performs
(sums of at most three bytes divided by 3 and by 8) the IEEE double rounding
error is far smaller than the distance of any intermediate value to the
nearest decision boundary, so the exact-rational model agrees with the float
semantics.  A store into a `Uint8ClampedArray` clamps to `[0, 255]` and
rounds to the nearest integer, ties to even (`ToUint8Clamp`); `toByte` below
models that store.  Out-of-range typed-array stores are silent no-ops, which
`List.set` mirrors, and string functions from the host (`trim`,
`split(/\s+/)`, `split(" ")`) are modelled character by character with
`Char.isWhitespace` standing for the regexp class `\s`.

Batteries seals the rational operations against unfolding, which would leave
concrete evaluation of the model to heavier tactics; re-opening them lets
`decide` and `rfl` evaluate the pipeline on concrete buffers.
-/

set_option allowUnsafeReducibility true in
attribute [semireducible] Rat.add Rat.sub Rat.mul Rat.inv

/-- Round half to even, the tie-breaking rule of `ToUint8Clamp`. -/
def rhe (q : ℚ) : ℤ :=
  if q - ⌊q⌋ < 1/2 then ⌊q⌋
  else if (1:ℚ)/2 < q - ⌊q⌋ then ⌊q⌋ + 1
  else if ⌊q⌋ % 2 = 0 then ⌊q⌋ else ⌊q⌋ + 1

/-- Source `clamp` (app.js:165-167): `Math.max(0, Math.min(255, value))`. -/
def clamp (value : ℚ) : ℚ := max 0 (min 255 value)

/-- A store into the `Uint8ClampedArray`: the source clamps the value first,
then the typed array rounds it to the nearest integer, ties to even. -/
def toByte (q : ℚ) : ℕ := (rhe (clamp q)).toNat

/-- Body of the loop of `applyExposure` (app.js:172-176) for the pixel whose
red byte sits at index `i`: scale R, G, B by `factor`, leave alpha alone.
Each read happens before the (index-distinct) writes it follows, exactly as
in the sequential source. -/
def exposurePixel (data : List ℕ) (i : ℕ) (factor : ℚ) : List ℕ :=
  let d0 := data.set i (toByte ((data.getD i 0 : ℚ) * factor))
  let d1 := d0.set (i + 1) (toByte ((d0.getD (i + 1) 0 : ℚ) * factor))
  d1.set (i + 2) (toByte ((d1.getD (i + 2) 0 : ℚ) * factor))

/-- Source `applyExposure` (app.js:169-177): a factor of exactly 1 returns at
once; otherwise one pass over the buffer in steps of 4 bytes.  The loop runs
`⌈length / 4⌉` times (`i = 0, 4, 8, …` while `i < length`). -/
def applyExposure (data : List ℕ) (factor : ℚ) : List ℕ :=
  if factor = 1 then data
  else (List.range ((data.length + 3) / 4)).foldl (fun d k => exposurePixel d (4 * k) factor) data

/-- Source `distribute` (app.js:213-219): add `value` to the R, G, B bytes of
the neighbor at `(nx, ny)`, each separately clamped and stored; neighbors
outside `[0,width) × [0,height)` are silently skipped. -/
def distribute (width height : ℕ) (data : List ℕ) (nx ny : ℤ) (value : ℚ) : List ℕ :=
  if nx < 0 ∨ (width : ℤ) ≤ nx ∨ ny < 0 ∨ (height : ℤ) ≤ ny then data
  else
    let nIdx := (ny.toNat * width + nx.toNat) * 4
    let d0 := data.set nIdx (toByte ((data.getD nIdx 0 : ℚ) + value))
    let d1 := d0.set (nIdx + 1) (toByte ((d0.getD (nIdx + 1) 0 : ℚ) + value))
    d1.set (nIdx + 2) (toByte ((d1.getD (nIdx + 2) 0 : ℚ) + value))

/-- The six forward/downward neighbor offsets of Atkinson dithering, in the
order the source calls `distribute` (app.js:204-209). -/
def atkinsonOffsets : List (ℤ × ℤ) := [(1, 0), (2, 0), (-1, 1), (0, 1), (1, 1), (0, 2)]

/-- One iteration of the inner loop of `atkinsonDither` (app.js:193-210):
average the R, G, B bytes of the pixel at `(x, y)`, quantize to 0 or 255
(threshold `avg ≤ 128`), write the quantized value to R, G, B and 255 to
alpha, then distribute `error / 8` to the six Atkinson neighbors. -/
def ditherStep (width height : ℕ) (data : List ℕ) (x y : ℕ) : List ℕ :=
  let idx := (y * width + x) * 4
  let avg : ℚ := ((data.getD idx 0 : ℚ) + (data.getD (idx + 1) 0 : ℚ)
    + (data.getD (idx + 2) 0 : ℚ)) / 3
  let newVal : ℕ := if avg ≤ 128 then 0 else 255
  let error : ℚ := avg - newVal
  let d0 := (((data.set idx newVal).set (idx + 1) newVal).set (idx + 2) newVal).set (idx + 3) 255
  let diff := error / 8
  atkinsonOffsets.foldl
    (fun d off => distribute width height d ((x : ℤ) + off.1) ((y : ℤ) + off.2) diff) d0

/-- The inner `for x` loop of `atkinsonDither` over the row `y`. -/
def ditherRow (width height : ℕ) (data : List ℕ) (y : ℕ) : List ℕ :=
  (List.range width).foldl (fun d x => ditherStep width height d x y) data

/-- Source `atkinsonDither` (app.js:190-220): a single forward raster pass,
`y` outer, `x` inner. -/
def atkinsonDither (data : List ℕ) (width height : ℕ) : List ℕ :=
  (List.range height).foldl (fun d y => ditherRow width height d y) data

/-- The pixel with scan index `p` is binarized: its red byte is 0 or 255,
green and blue equal red, and alpha is 255. -/
def isBW (data : List ℕ) (p : ℕ) : Prop :=
  (data.getD (p * 4) 0 = 0 ∨ data.getD (p * 4) 0 = 255) ∧
  data.getD (p * 4 + 1) 0 = data.getD (p * 4) 0 ∧
  data.getD (p * 4 + 2) 0 = data.getD (p * 4) 0 ∧
  data.getD (p * 4 + 3) 0 = 255

instance (data : List ℕ) (p : ℕ) : Decidable (isBW data p) := by
  unfold isBW; infer_instance

/-- Source `getRandomQuote` (app.js:128-141), with the module state `lastQuote`
passed and returned explicitly and `Math.floor(Math.random() * quotes.length)`
abstracted into the draw index `draw`.  Returns the served quote paired with
the new `lastQuote` (the empty-corpus path leaves the state untouched, as the
source returns before assigning).  `List.indexOf` matches the source's
`quotes.indexOf(next)`: the first index holding `next` (which is present, so
the JavaScript `-1` case cannot occur for `draw < quotes.length`). -/
def getRandomQuote (quotes : List String) (lastQuote : String) (draw : ℕ) : String × String :=
  if quotes.length = 0 then ("", lastQuote)
  else if quotes.length = 1 then (quotes.getD 0 "", quotes.getD 0 "")
  else
    let next := quotes.getD draw ""
    if next = lastQuote then
      let idx := quotes.indexOf next
      let next' := quotes.getD ((idx + 1) % quotes.length) ""
      (next', next')
    else (next, next)

/-- The JavaScript `String.prototype.trim`: drop leading and trailing
whitespace. -/
def jsTrim (s : String) : String :=
  String.mk (((s.data.dropWhile Char.isWhitespace).reverse.dropWhile Char.isWhitespace).reverse)

/-- Helper of `words`: scan the characters, collecting the current word in
`acc` (reversed); whitespace closes the current word, runs collapse. -/
def splitWs : List Char → List Char → List String
  | [], acc => if acc = [] then [] else [String.mk acc.reverse]
  | ch :: cs, acc =>
    if ch.isWhitespace then
      if acc = [] then splitWs cs [] else String.mk acc.reverse :: splitWs cs []
    else splitWs cs (ch :: acc)

/-- The source's `content.split(/\s+/)` (app.js:147): the maximal runs of
non-whitespace characters, in order.  On a trimmed string this is exactly
what the JavaScript split returns (no empty fragments). -/
def words (s : String) : List String := splitWs s.data []

/-- The greedy accumulation loop of `getQuoteLines` (app.js:148-161),
including the trailing `if (current) lines.push(current)`. -/
def wrapLoop (measure : String → ℚ) (maxWidth : ℚ) :
    List String → String → List String → List String
  | [], current, lines => if current ≠ "" then lines ++ [current] else lines
  | word :: rest, current, lines =>
    let candidate := if current ≠ "" then current ++ " " ++ word else word
    if measure candidate ≤ maxWidth ∨ current = "" then
      wrapLoop measure maxWidth rest candidate lines
    else
      wrapLoop measure maxWidth rest word (lines ++ [current])

/-- Source `getQuoteLines` (app.js:143-163).  The canvas text measurer
(`measureContext.measureText(·).width` under the chosen `font`) is an
external collaborator, abstracted as the function `measure`. -/
def getQuoteLines (text : String) (measure : String → ℚ) (maxWidth : ℚ) : List String :=
  let content := jsTrim text
  if content = "" then [] else wrapLoop measure maxWidth (words content) "" []

/-- Helper of `splitSp`: split on every single space character, keeping empty
fragments, as `"…".split(" ")` does in JavaScript. -/
def splitSpAux : List Char → List Char → List String
  | [], acc => [String.mk acc.reverse]
  | ch :: cs, acc =>
    if ch = ' ' then String.mk acc.reverse :: splitSpAux cs [] else splitSpAux cs (ch :: acc)

/-- The JavaScript `line.split(" ")`: fragments between single spaces. -/
def splitSp (s : String) : List String := splitSpAux s.data []

/-- The words of a line joined by single spaces, the way `wrapLoop` builds its
`current` string. -/
def joinW : List String → String
  | [] => ""
  | w :: ws => ws.foldl (fun acc v => acc ++ " " ++ v) w

/-- The wrap loop lifted to lists of words: each produced group is the list of
words of one output line of `wrapLoop` (proved in `wrapLoop_eq_groups`). -/
def wrapGroups (measure : String → ℚ) (maxWidth : ℚ) :
    List String → List String → List (List String)
  | [], cur => if cur = [] then [] else [cur]
  | w :: rest, cur =>
    if measure (joinW (cur ++ [w])) ≤ maxWidth ∨ cur = [] then
      wrapGroups measure maxWidth rest (cur ++ [w])
    else cur :: wrapGroups measure maxWidth rest [w]

/-- `Math.round` on a nonnegative value: floor of `q + 1/2` (JavaScript rounds
half toward positive infinity). -/
def jsRound (q : ℚ) : ℤ := ⌊q + 1/2⌋

/-- The geometry `renderPolaroid` computes (its drawing calls are canvas I/O,
out of the modelled core). -/
structure PolaroidLayout where
  photoWidth : ℕ
  photoHeight : ℤ
  quoteLines : List String
  quotePadding : ℕ
  canvasWidth : ℕ
  canvasHeight : ℤ

/-- `frame.padding` (app.js:19). -/
def framePadding : ℕ := 12

/-- `frame.bottom` (app.js:19). -/
def frameBottom : ℕ := 60

/-- `typography.quoteLineHeight` (app.js:24). -/
def quoteLineHeight : ℕ := 22

/-- `typography.quoteBlockPadding.top` (app.js:25). -/
def quoteBlockPaddingTop : ℕ := 10

/-- `typography.quoteBlockPadding.bottom` (app.js:25). -/
def quoteBlockPaddingBottom : ℕ := 12

/-- The layout computation of `renderPolaroid` (app.js:323-332): photo scaled
to width 440 preserving aspect, quote wrapped to `photoWidth - 24`, quote
block height `22 * lines + 10 + 12` when there are lines, canvas dimensions
from padding 12 and caption band 60.  The quote font's measurer is the
parameter `measure`. -/
def renderPolaroid (sourceWidth sourceHeight : ℕ) (measure : String → ℚ)
    (quoteText : String) : PolaroidLayout :=
  let photoWidth : ℕ := 440
  let photoHeight : ℤ := jsRound ((photoWidth : ℚ) / (sourceWidth : ℚ) * (sourceHeight : ℚ))
  let quoteLines := getQuoteLines quoteText measure ((photoWidth : ℚ) - 24)
  let quotePadding : ℕ :=
    if quoteLines.length ≠ 0 then
      quoteLineHeight * quoteLines.length + quoteBlockPaddingTop + quoteBlockPaddingBottom
    else 0
  let canvasWidth : ℕ := photoWidth + framePadding * 2
  let canvasHeight : ℤ :=
    photoHeight + (framePadding : ℤ) * 2 + (frameBottom : ℤ) + (quotePadding : ℤ)
  ⟨photoWidth, photoHeight, quoteLines, quotePadding, canvasWidth, canvasHeight⟩

/-! ## List access helpers -/

theorem getD_set_ne (l : List ℕ) (i j a : ℕ) (h : i ≠ j) :
    (l.set i a).getD j 0 = l.getD j 0 := by
  simp [List.getD_eq_getElem?_getD, List.getElem?_set_ne h]

theorem getD_set_eq (l : List ℕ) (i a : ℕ) (h : i < l.length) :
    (l.set i a).getD i 0 = a := by
  simp [List.getD_eq_getElem?_getD, List.getElem?_set_self, h]

theorem foldl_getD_preserve {α : Type} (f : List ℕ → α → List ℕ) (l : List α) (d : List ℕ)
    (j : ℕ) (hf : ∀ dd a, a ∈ l → (f dd a).getD j 0 = dd.getD j 0) :
    (l.foldl f d).getD j 0 = d.getD j 0 := by
  induction l generalizing d with
  | nil => rfl
  | cons a l ih =>
    simp only [List.foldl_cons]
    rw [ih (f d a) (fun dd b hb => hf dd b (List.mem_cons_of_mem a hb)),
      hf d a (List.mem_cons_self a l)]

theorem foldl_length_preserve {α : Type} (f : List ℕ → α → List ℕ) (l : List α) (d : List ℕ)
    (hf : ∀ dd a, a ∈ l → (f dd a).length = dd.length) :
    (l.foldl f d).length = d.length := by
  induction l generalizing d with
  | nil => rfl
  | cons a l ih =>
    simp only [List.foldl_cons]
    rw [ih (f d a) (fun dd b hb => hf dd b (List.mem_cons_of_mem a hb)),
      hf d a (List.mem_cons_self a l)]

/-! ## Dither: structural lemmas -/

theorem distribute_length (w h : ℕ) (data : List ℕ) (nx ny : ℤ) (v : ℚ) :
    (distribute w h data nx ny v).length = data.length := by
  unfold distribute
  split
  · rfl
  · simp [List.length_set]

theorem distribute_getD_early (w h : ℕ) (data : List ℕ) (nx ny : ℤ) (v : ℚ) (j : ℕ)
    (hj : 0 ≤ nx → nx < (w : ℤ) → 0 ≤ ny → ny < (h : ℤ) →
      j < (ny.toNat * w + nx.toNat) * 4) :
    (distribute w h data nx ny v).getD j 0 = data.getD j 0 := by
  unfold distribute
  split
  · rfl
  · rename_i hg
    push_neg at hg
    obtain ⟨h1, h2, h3, h4⟩ := hg
    have hb := hj h1 h2 h3 h4
    rw [getD_set_ne _ ((ny.toNat * w + nx.toNat) * 4 + 2) j _ (by omega),
      getD_set_ne _ ((ny.toNat * w + nx.toNat) * 4 + 1) j _ (by omega),
      getD_set_ne _ ((ny.toNat * w + nx.toNat) * 4) j _ (by omega)]

theorem distFold_preserve (w h x y : ℕ) (diff : ℚ) (d : List ℕ) (j : ℕ)
    (hx : x < w) (hj : j < (y * w + x + 1) * 4) :
    (atkinsonOffsets.foldl
      (fun dd off => distribute w h dd ((x : ℤ) + off.1) ((y : ℤ) + off.2) diff) d).getD j 0
      = d.getD j 0 := by
  apply foldl_getD_preserve
  intro dd off hoff
  apply distribute_getD_early
  intro h1 h2 h3 h4
  simp only [atkinsonOffsets, List.mem_cons, List.mem_nil_iff, or_false] at hoff
  rcases hoff with rfl | rfl | rfl | rfl | rfl | rfl
  · have e1 : ((y : ℤ) + (1, 0).2).toNat = y := by omega
    have e2 : ((x : ℤ) + (1, 0).1).toNat = x + 1 := by omega
    rw [e1, e2]; omega
  · have e1 : ((y : ℤ) + (2, 0).2).toNat = y := by omega
    have e2 : ((x : ℤ) + (2, 0).1).toNat = x + 2 := by omega
    rw [e1, e2]; omega
  · have e1 : ((y : ℤ) + ((-1 : ℤ), (1 : ℤ)).2).toNat = y + 1 := by omega
    have e2 : ((x : ℤ) + ((-1 : ℤ), (1 : ℤ)).1).toNat = x - 1 := by omega
    have hx1 : 1 ≤ x := by omega
    rw [e1, e2, Nat.add_mul y 1 w]; omega
  · have e1 : ((y : ℤ) + (0, 1).2).toNat = y + 1 := by omega
    have e2 : ((x : ℤ) + (0, 1).1).toNat = x := by omega
    rw [e1, e2, Nat.add_mul y 1 w]; omega
  · have e1 : ((y : ℤ) + (1, 1).2).toNat = y + 1 := by omega
    have e2 : ((x : ℤ) + (1, 1).1).toNat = x + 1 := by omega
    rw [e1, e2, Nat.add_mul y 1 w]; omega
  · have e1 : ((y : ℤ) + (0, 2).2).toNat = y + 2 := by omega
    have e2 : ((x : ℤ) + (0, 2).1).toNat = x := by omega
    rw [e1, e2, Nat.add_mul y 2 w]; omega

theorem ditherStep_length (w h : ℕ) (data : List ℕ) (x y : ℕ) :
    (ditherStep w h data x y).length = data.length := by
  simp only [ditherStep]
  rw [foldl_length_preserve _ _ _ (fun dd off hoff => distribute_length w h dd _ _ _)]
  simp [List.length_set]

theorem ditherStep_getD_early (w h : ℕ) (data : List ℕ) (x y j : ℕ)
    (hx : x < w) (hj : j < (y * w + x) * 4) :
    (ditherStep w h data x y).getD j 0 = data.getD j 0 := by
  simp only [ditherStep]
  rw [distFold_preserve w h x y _ _ j hx (by omega)]
  rw [getD_set_ne _ ((y * w + x) * 4 + 3) j _ (by omega),
    getD_set_ne _ ((y * w + x) * 4 + 2) j _ (by omega),
    getD_set_ne _ ((y * w + x) * 4 + 1) j _ (by omega),
    getD_set_ne _ ((y * w + x) * 4) j _ (by omega)]

theorem ditherStep_own (w h : ℕ) (data : List ℕ) (x y : ℕ) (hx : x < w) (hy : y < h)
    (hlen : data.length = w * h * 4) : isBW (ditherStep w h data x y) (y * w + x) := by
  have hp : (y * w + x) * 4 + 3 < data.length := by
    have h1 : y * w + x < w * h := by
      calc y * w + x < y * w + w := by omega
        _ = (y + 1) * w := by rw [Nat.add_mul]; omega
        _ ≤ h * w := Nat.mul_le_mul_right w (by omega)
        _ = w * h := Nat.mul_comm h w
    omega
  simp only [ditherStep, isBW]
  refine ⟨?_, ?_, ?_, ?_⟩
  · rw [distFold_preserve w h x y _ _ _ hx (by omega)]
    rw [getD_set_ne _ ((y * w + x) * 4 + 3) ((y * w + x) * 4) _ (by omega),
      getD_set_ne _ ((y * w + x) * 4 + 2) ((y * w + x) * 4) _ (by omega),
      getD_set_ne _ ((y * w + x) * 4 + 1) ((y * w + x) * 4) _ (by omega),
      getD_set_eq _ ((y * w + x) * 4) _ (by omega)]
    split
    · exact Or.inl rfl
    · exact Or.inr rfl
  · rw [distFold_preserve w h x y _ _ _ hx (by omega),
      distFold_preserve w h x y _ _ _ hx (by omega)]
    rw [getD_set_ne _ ((y * w + x) * 4 + 3) ((y * w + x) * 4 + 1) _ (by omega),
      getD_set_ne _ ((y * w + x) * 4 + 2) ((y * w + x) * 4 + 1) _ (by omega),
      getD_set_eq _ ((y * w + x) * 4 + 1) _ (by simp [List.length_set]; omega)]
    rw [getD_set_ne _ ((y * w + x) * 4 + 3) ((y * w + x) * 4) _ (by omega),
      getD_set_ne _ ((y * w + x) * 4 + 2) ((y * w + x) * 4) _ (by omega),
      getD_set_ne _ ((y * w + x) * 4 + 1) ((y * w + x) * 4) _ (by omega),
      getD_set_eq _ ((y * w + x) * 4) _ (by omega)]
  · rw [distFold_preserve w h x y _ _ _ hx (by omega),
      distFold_preserve w h x y _ _ _ hx (by omega)]
    rw [getD_set_ne _ ((y * w + x) * 4 + 3) ((y * w + x) * 4 + 2) _ (by omega),
      getD_set_eq _ ((y * w + x) * 4 + 2) _ (by simp [List.length_set]; omega)]
    rw [getD_set_ne _ ((y * w + x) * 4 + 3) ((y * w + x) * 4) _ (by omega),
      getD_set_ne _ ((y * w + x) * 4 + 2) ((y * w + x) * 4) _ (by omega),
      getD_set_ne _ ((y * w + x) * 4 + 1) ((y * w + x) * 4) _ (by omega),
      getD_set_eq _ ((y * w + x) * 4) _ (by omega)]
  · rw [distFold_preserve w h x y _ _ _ hx (by omega)]
    rw [getD_set_eq _ ((y * w + x) * 4 + 3) _ (by simp [List.length_set]; omega)]

theorem ditherStep_preserves_bw (w h : ℕ) (data : List ℕ) (x y q : ℕ)
    (hx : x < w) (hq : q < y * w + x) (hbw : isBW data q) :
    isBW (ditherStep w h data x y) q := by
  unfold isBW at hbw ⊢
  rw [ditherStep_getD_early w h data x y _ hx (by omega),
    ditherStep_getD_early w h data x y _ hx (by omega),
    ditherStep_getD_early w h data x y _ hx (by omega),
    ditherStep_getD_early w h data x y _ hx (by omega)]
  exact hbw

theorem ditherRowAux (w h y : ℕ) (hy : y < h) :
    ∀ n, n ≤ w → ∀ data : List ℕ, data.length = w * h * 4 →
    (∀ q, q < y * w → isBW data q) →
    ((List.range n).foldl (fun d x => ditherStep w h d x y) data).length = w * h * 4 ∧
    ∀ q, q < y * w + n →
      isBW ((List.range n).foldl (fun d x => ditherStep w h d x y) data) q := by
  intro n
  induction n with
  | zero =>
    intro _ data hlen hbase
    exact ⟨hlen, fun q hq => hbase q (by omega)⟩
  | succ n ih =>
    intro hn data hlen hbase
    obtain ⟨ihlen, ihbw⟩ := ih (by omega) data hlen hbase
    rw [List.range_succ, List.foldl_append, List.foldl_cons, List.foldl_nil]
    refine ⟨by rw [ditherStep_length]; exact ihlen, fun q hq => ?_⟩
    rcases Nat.lt_or_ge q (y * w + n) with hlt | hge
    · exact ditherStep_preserves_bw w h _ n y q (by omega) hlt (ihbw q hlt)
    · have hqe : q = y * w + n := by omega
      subst hqe
      exact ditherStep_own w h _ n y (by omega) hy ihlen

theorem ditherRowsAux (w h : ℕ) :
    ∀ m, m ≤ h → ∀ data : List ℕ, data.length = w * h * 4 →
    ((List.range m).foldl (fun d y => ditherRow w h d y) data).length = w * h * 4 ∧
    ∀ q, q < m * w →
      isBW ((List.range m).foldl (fun d y => ditherRow w h d y) data) q := by
  intro m
  induction m with
  | zero => exact fun _ data hlen => ⟨hlen, fun q hq => by omega⟩
  | succ m ih =>
    intro hm data hlen
    obtain ⟨ihlen, ihbw⟩ := ih (by omega) data hlen
    rw [List.range_succ, List.foldl_append, List.foldl_cons, List.foldl_nil]
    obtain ⟨rlen, rbw⟩ := ditherRowAux w h m (by omega) w le_rfl _ ihlen ihbw
    refine ⟨rlen, fun q hq => ?_⟩
    exact rbw q (by rw [Nat.add_mul] at hq; omega)

/-- C1: for every buffer with positive dimensions and exactly
`width * height * 4` samples, after `atkinsonDither` every pixel's R, G and B
bytes are exactly 0 or 255 with all three equal, and every alpha byte is 255. -/
theorem atkinsonDither_binarizes (data : List ℕ) (width height : ℕ)
    (_hw : 0 < width) (_hh : 0 < height) (hlen : data.length = width * height * 4)
    (p : ℕ) (hp : p < width * height) : isBW (atkinsonDither data width height) p := by
  unfold atkinsonDither
  exact (ditherRowsAux width height height le_rfl data hlen).2 p
    (by rw [Nat.mul_comm height width]; omega)

theorem atkinsonDither_binarizes_witness :
    (0 < 2 ∧ 0 < 1 ∧ ([10, 200, 30, 40, 250, 250, 250, 7] : List ℕ).length = 2 * 1 * 4 ∧ 1 < 2 * 1)
    ∧ isBW (atkinsonDither [10, 200, 30, 40, 250, 250, 250, 7] 2 1) 1 :=
  ⟨by decide, atkinsonDither_binarizes [10, 200, 30, 40, 250, 250, 250, 7] 2 1
    (by decide) (by decide) (by decide) 1 (by decide)⟩

/-- C9: every in-bounds error-distribution target of the step at `(x, y)` is a
pixel strictly later in row-major scan order, and consequently a step at a
strictly later pixel `(x', y')` leaves all four bytes of the pixel at `(x, y)`
unchanged — each pixel's final value is written exactly once, by its own step. -/
theorem ditherStep_writes_forward :
    (∀ (w h x y : ℕ) (off : ℤ × ℤ), off ∈ atkinsonOffsets → x < w →
      0 ≤ (x : ℤ) + off.1 → (x : ℤ) + off.1 < (w : ℤ) →
      0 ≤ (y : ℤ) + off.2 → (y : ℤ) + off.2 < (h : ℤ) →
      y * w + x < ((y : ℤ) + off.2).toNat * w + ((x : ℤ) + off.1).toNat) ∧
    (∀ (w h : ℕ) (data : List ℕ) (x y x' y' k : ℕ), x' < w → k < 4 →
      y * w + x < y' * w + x' →
      (ditherStep w h data x' y').getD ((y * w + x) * 4 + k) 0
        = data.getD ((y * w + x) * 4 + k) 0) := by
  constructor
  · intro w h x y off hoff hx h1 h2 h3 h4
    simp only [atkinsonOffsets, List.mem_cons, List.mem_nil_iff, or_false] at hoff
    rcases hoff with rfl | rfl | rfl | rfl | rfl | rfl
    · have e1 : ((y : ℤ) + (1, 0).2).toNat = y := by omega
      have e2 : ((x : ℤ) + (1, 0).1).toNat = x + 1 := by omega
      rw [e1, e2]; omega
    · have e1 : ((y : ℤ) + (2, 0).2).toNat = y := by omega
      have e2 : ((x : ℤ) + (2, 0).1).toNat = x + 2 := by omega
      rw [e1, e2]; omega
    · have e1 : ((y : ℤ) + ((-1 : ℤ), (1 : ℤ)).2).toNat = y + 1 := by omega
      have e2 : ((x : ℤ) + ((-1 : ℤ), (1 : ℤ)).1).toNat = x - 1 := by omega
      have hx1 : 1 ≤ x := by omega
      rw [e1, e2, Nat.add_mul y 1 w]; omega
    · have e1 : ((y : ℤ) + (0, 1).2).toNat = y + 1 := by omega
      have e2 : ((x : ℤ) + (0, 1).1).toNat = x := by omega
      rw [e1, e2, Nat.add_mul y 1 w]; omega
    · have e1 : ((y : ℤ) + (1, 1).2).toNat = y + 1 := by omega
      have e2 : ((x : ℤ) + (1, 1).1).toNat = x + 1 := by omega
      rw [e1, e2, Nat.add_mul y 1 w]; omega
    · have e1 : ((y : ℤ) + (0, 2).2).toNat = y + 2 := by omega
      have e2 : ((x : ℤ) + (0, 2).1).toNat = x := by omega
      rw [e1, e2, Nat.add_mul y 2 w]; omega
  · intro w h data x y x' y' k hx hk hlt
    exact ditherStep_getD_early w h data x' y' _ hx (by omega)

theorem ditherStep_writes_forward_witness :
    (((1 : ℤ), (0 : ℤ)) ∈ atkinsonOffsets ∧ 0 * 2 + 0 < ((0 : ℤ) + (1, 0).2).toNat * 2
      + ((0 : ℤ) + (1, 0).1).toNat) ∧
    (ditherStep 2 2 [1, 2, 3, 4, 5, 6, 7, 8, 9, 10, 11, 12, 13, 14, 15, 16] 1 0).getD
      ((0 * 2 + 0) * 4 + 2) 0
      = [1, 2, 3, 4, 5, 6, 7, 8, 9, 10, 11, 12, 13, 14, 15, 16].getD ((0 * 2 + 0) * 4 + 2) 0 :=
  ⟨⟨by decide, ditherStep_writes_forward.1 2 2 0 0 (1, 0) (by decide) (by decide)
      (by decide) (by decide) (by decide) (by decide)⟩,
    ditherStep_writes_forward.2 2 2 [1, 2, 3, 4, 5, 6, 7, 8, 9, 10, 11, 12, 13, 14, 15, 16]
      0 0 1 0 2 (by decide) (by decide) (by decide)⟩

set_option maxHeartbeats 4000000 in
set_option maxRecDepth 100000 in
/-- C2: dithering a 2x2 buffer whose every R, G, B channel is 128 (alphas
arbitrary) produces, in scan order (0,0), (1,0), (0,1), (1,1), the quantized
values 0, 255, 255, 0 with R = G = B on each pixel and all alphas 255:
pixel (0,0) averages exactly 128 and goes black, pushing +16 forward; both
neighbors then average 144 and 130 and go white; the error pushed onto (1,1)
drives it to 114, which goes black. -/
theorem atkinsonDither_midgray_2x2 (a b c d : ℕ) :
    atkinsonDither [128, 128, 128, a, 128, 128, 128, b, 128, 128, 128, c, 128, 128, 128, d] 2 2
      = [0, 0, 0, 255, 255, 255, 255, 255, 255, 255, 255, 255, 0, 0, 0, 255] := by
  have h1 : ditherStep 2 2
      [128, 128, 128, a, 128, 128, 128, b, 128, 128, 128, c, 128, 128, 128, d] 0 0
      = [0, 0, 0, 255, 144, 144, 144, b, 144, 144, 144, c, 144, 144, 144, d] := by
    norm_num [ditherStep, atkinsonOffsets, distribute, toByte, rhe, clamp, List.set, List.getD]
    all_goals decide
  have h2 : ditherStep 2 2
      [0, 0, 0, 255, 144, 144, 144, b, 144, 144, 144, c, 144, 144, 144, d] 1 0
      = [0, 0, 0, 255, 255, 255, 255, 255, 130, 130, 130, c, 130, 130, 130, d] := by
    norm_num [ditherStep, atkinsonOffsets, distribute, toByte, rhe, clamp, List.set, List.getD]
    all_goals decide
  have h3 : ditherStep 2 2
      [0, 0, 0, 255, 255, 255, 255, 255, 130, 130, 130, c, 130, 130, 130, d] 0 1
      = [0, 0, 0, 255, 255, 255, 255, 255, 255, 255, 255, 255, 114, 114, 114, d] := by
    norm_num [ditherStep, atkinsonOffsets, distribute, toByte, rhe, clamp, List.set, List.getD]
    all_goals decide
  have h4 : ditherStep 2 2
      [0, 0, 0, 255, 255, 255, 255, 255, 255, 255, 255, 255, 114, 114, 114, d] 1 1
      = [0, 0, 0, 255, 255, 255, 255, 255, 255, 255, 255, 255, 0, 0, 0, 255] := by
    norm_num [ditherStep, atkinsonOffsets, distribute, toByte, rhe, clamp, List.set, List.getD]
    all_goals decide
  simp only [atkinsonDither, ditherRow, List.range_succ, List.range_zero, List.nil_append,
    List.foldl_append, List.foldl_cons, List.foldl_nil]
  rw [h1, h2, h3, h4]

/-- C4 (counterexample): the source performs no shape validation at all.  A
call with `width = 0` on a buffer whose length (4) disagrees with
`width * height * 4 = 0` raises no error and simply returns the buffer; the
geometry of `renderPolaroid` is likewise computed with no precondition check
on the source dimensions. -/
theorem atkinsonDither_no_validation :
    atkinsonDither [5, 5, 5, 5] 0 3 = [5, 5, 5, 5]
    ∧ (renderPolaroid 0 5 (fun _ => 0) "").canvasWidth = 464 := by
  exact ⟨rfl, rfl⟩

theorem foldl_congr_id (l : List ℕ) (ns : List ℕ) (f : List ℕ → ℕ → List ℕ)
    (hf : ∀ d n, f d n = d) : ns.foldl f l = l := by
  induction ns with
  | nil => rfl
  | cons n ns ih => rw [List.foldl_cons, hf l n, ih]

/-- C4 (amended): `atkinsonDither` detects nothing and raises nothing on
degenerate dimensions — with `width = 0` or `height = 0` both loops are empty,
no byte is written, and the buffer is returned unchanged; `renderPolaroid`
computes its layout without any check of the source dimensions. -/
theorem atkinsonDither_degenerate_noop :
    (∀ (data : List ℕ) (hgt : ℕ), atkinsonDither data 0 hgt = data) ∧
    (∀ (data : List ℕ) (w : ℕ), atkinsonDither data w 0 = data) ∧
    (∀ (sh : ℕ) (measure : String → ℚ) (t : String),
      (renderPolaroid 0 sh measure t).canvasWidth = 440 + 12 * 2) := by
  refine ⟨fun data hgt => ?_, fun data w => rfl, fun sh measure t => rfl⟩
  unfold atkinsonDither
  exact foldl_congr_id data (List.range hgt) _ (fun d n => rfl)

/-! ## Exposure -/

theorem toByte_coe (n : ℕ) (hn : n ≤ 255) : toByte (n : ℚ) = n := by
  have h0 : (0 : ℚ) ≤ (n : ℚ) := Nat.cast_nonneg n
  have h255 : (n : ℚ) ≤ 255 := by exact_mod_cast hn
  unfold toByte clamp rhe
  rw [min_eq_right h255, max_eq_right h0, Int.floor_natCast]
  rw [if_pos (by simp)]
  exact Int.toNat_natCast n

theorem exposurePixel_length (d : List ℕ) (b : ℕ) (factor : ℚ) :
    (exposurePixel d b factor).length = d.length := by
  simp [exposurePixel, List.length_set]

theorem exposurePixel_getD (d : List ℕ) (b : ℕ) (factor : ℚ) (i : ℕ) (hi : i < d.length) :
    (exposurePixel d b factor).getD i 0 =
      if i = b ∨ i = b + 1 ∨ i = b + 2 then toByte ((d.getD i 0 : ℚ) * factor)
      else d.getD i 0 := by
  unfold exposurePixel
  by_cases hb : i = b
  · subst hb
    rw [if_pos (by omega)]
    rw [getD_set_ne _ (i + 2) i _ (by omega), getD_set_ne _ (i + 1) i _ (by omega)]
    rw [getD_set_eq _ i _ (by omega)]
  by_cases hb1 : i = b + 1
  · subst hb1
    rw [if_pos (by omega)]
    rw [getD_set_ne _ (b + 2) (b + 1) _ (by omega)]
    rw [getD_set_eq _ (b + 1) _ (by simp [List.length_set]; omega)]
    rw [getD_set_ne _ b (b + 1) _ (by omega)]
  by_cases hb2 : i = b + 2
  · subst hb2
    rw [if_pos (by omega)]
    rw [getD_set_eq _ (b + 2) _ (by simp [List.length_set]; omega)]
    rw [getD_set_ne _ (b + 1) (b + 2) _ (by omega), getD_set_ne _ b (b + 2) _ (by omega)]
  rw [if_neg (by omega)]
  rw [getD_set_ne _ (b + 2) i _ (by omega), getD_set_ne _ (b + 1) i _ (by omega),
    getD_set_ne _ b i _ (by omega)]

theorem applyExposure_fold (factor : ℚ) (data : List ℕ) :
    ∀ n : ℕ,
    ((List.range n).foldl (fun d k => exposurePixel d (4 * k) factor) data).length = data.length
    ∧ ∀ i, i < data.length →
      ((List.range n).foldl (fun d k => exposurePixel d (4 * k) factor) data).getD i 0 =
        if i / 4 < n ∧ i % 4 ≠ 3 then toByte ((data.getD i 0 : ℚ) * factor)
        else data.getD i 0 := by
  intro n
  induction n with
  | zero => exact ⟨rfl, fun i hi => by rw [if_neg (by omega)]; rfl⟩
  | succ n ih =>
    obtain ⟨ihlen, ihget⟩ := ih
    rw [List.range_succ, List.foldl_append, List.foldl_cons, List.foldl_nil]
    refine ⟨by rw [exposurePixel_length]; exact ihlen, fun i hi => ?_⟩
    rw [exposurePixel_getD _ _ _ i (by rw [ihlen]; exact hi)]
    by_cases hin : i = 4 * n ∨ i = 4 * n + 1 ∨ i = 4 * n + 2
    · rw [if_pos hin, ihget i hi, if_neg (by omega), if_pos (by omega)]
    · rw [if_neg hin, ihget i hi]
      by_cases hdone : i / 4 < n ∧ i % 4 ≠ 3
      · rw [if_pos hdone, if_pos (by omega)]
      · rw [if_neg hdone, if_neg (by omega)]

/-- C8: `applyExposure` maps every R, G, B byte `c` to the stored value of
`clamp(c * factor)` and leaves every alpha byte unchanged; with factor
exactly 1 it is a verbatim no-op (the source short-circuits, and the identity
also holds semantically on byte-valued buffers). -/
theorem applyExposure_spec (data : List ℕ) (factor : ℚ)
    (hbytes : ∀ bb ∈ data, bb ≤ 255) :
    applyExposure data 1 = data ∧
    (∀ i, i < data.length → i % 4 = 3 →
      (applyExposure data factor).getD i 0 = data.getD i 0) ∧
    (∀ i, i < data.length → i % 4 ≠ 3 →
      (applyExposure data factor).getD i 0 = toByte ((data.getD i 0 : ℚ) * factor)) := by
  refine ⟨by simp [applyExposure], ?_, ?_⟩
  · intro i hi halpha
    unfold applyExposure
    split
    · rfl
    · rw [(applyExposure_fold factor data ((data.length + 3) / 4)).2 i hi, if_neg (by omega)]
  · intro i hi hrgb
    have hbyte : data.getD i 0 ≤ 255 := by
      rw [List.getD_eq_getElem?_getD, List.getElem?_eq_getElem hi]
      exact hbytes _ (List.getElem_mem hi)
    unfold applyExposure
    split
    · rename_i hfac
      rw [hfac, mul_one, toByte_coe _ hbyte]
    · rw [(applyExposure_fold factor data ((data.length + 3) / 4)).2 i hi,
        if_pos (by omega)]

theorem applyExposure_spec_witness :
    ((∀ bb ∈ ([10, 20, 30, 40] : List ℕ), bb ≤ 255) ∧ 2 < 4 ∧ 2 % 4 ≠ 3 ∧ 3 % 4 = 3) ∧
    applyExposure [10, 20, 30, 40] 1 = [10, 20, 30, 40] ∧
    (applyExposure [10, 20, 30, 40] (3/2)).getD 3 0 = 40 ∧
    (applyExposure [10, 20, 30, 40] (3/2)).getD 2 0 = toByte (((30 : ℕ) : ℚ) * (3/2)) :=
  ⟨by decide,
    (applyExposure_spec [10, 20, 30, 40] (3/2) (by decide)).1,
    (applyExposure_spec [10, 20, 30, 40] (3/2) (by decide)).2.1 3 (by decide) (by decide),
    (applyExposure_spec [10, 20, 30, 40] (3/2) (by decide)).2.2 2 (by decide) (by decide)⟩

/-! ## Text wrap: joining and splitting lines -/

theorem string_eq_empty_iff (s : String) : s = "" ↔ s.data = [] := by
  cases s
  simp [String.ext_iff]

theorem mk_ne_empty (l : List Char) (h : l ≠ []) : String.mk l ≠ "" := by
  intro hc
  exact h (by simpa using congrArg String.data hc)

theorem joinW_foldl_prefix (ws : List String) :
    ∀ a x : String, ws.foldl (fun acc v => acc ++ " " ++ v) (a ++ x)
      = a ++ ws.foldl (fun acc v => acc ++ " " ++ v) x := by
  induction ws with
  | nil => intro a x; rfl
  | cons v ws ih =>
    intro a x
    simp only [List.foldl_cons]
    have e : (a ++ x) ++ " " ++ v = a ++ (x ++ " " ++ v) := by
      simp [String.append_assoc]
    rw [e, ih a (x ++ " " ++ v)]

theorem joinW_cons_cons (w v : String) (ws : List String) :
    joinW (w :: v :: ws) = w ++ " " ++ joinW (v :: ws) := by
  show (v :: ws).foldl (fun acc u => acc ++ " " ++ u) w = _
  simp only [List.foldl_cons]
  rw [show w ++ " " ++ v = (w ++ " ") ++ v from rfl, joinW_foldl_prefix ws (w ++ " ") v]
  rfl

theorem joinW_grows (ws : List String) (a : String) :
    ∃ t, ws.foldl (fun acc v => acc ++ " " ++ v) a = a ++ t := by
  induction ws generalizing a with
  | nil => exact ⟨"", by simp⟩
  | cons v ws ih =>
    obtain ⟨t, ht⟩ := ih (a ++ " " ++ v)
    refine ⟨" " ++ v ++ t, ?_⟩
    simp only [List.foldl_cons, ht]
    rw [String.append_assoc, String.append_assoc, String.append_assoc]

theorem joinW_ne_empty (w : String) (ws : List String) (hw : w ≠ "") :
    joinW (w :: ws) ≠ "" := by
  obtain ⟨t, ht⟩ := joinW_grows ws w
  show ws.foldl (fun acc v => acc ++ " " ++ v) w ≠ ""
  rw [ht]
  intro hc
  rw [string_eq_empty_iff, String.data_append, List.append_eq_nil] at hc
  exact hw (by rw [string_eq_empty_iff]; exact hc.1)

theorem joinW_append_singleton (cur : List String) (w : String) (hc : cur ≠ []) :
    joinW (cur ++ [w]) = joinW cur ++ " " ++ w := by
  obtain ⟨c, cs, rfl⟩ := List.exists_cons_of_ne_nil hc
  show ((cs ++ [w]).foldl (fun acc v => acc ++ " " ++ v) c) = _
  rw [List.foldl_append]
  rfl

theorem joinW_append (cur rest : List String) (hc : cur ≠ []) :
    ∃ t, joinW (cur ++ rest) = joinW cur ++ t := by
  obtain ⟨c, cs, rfl⟩ := List.exists_cons_of_ne_nil hc
  show ∃ t, (cs ++ rest).foldl (fun acc v => acc ++ " " ++ v) c = _
  rw [List.foldl_append]
  exact joinW_grows rest _

theorem splitWs_spec (cs : List Char) :
    ∀ acc, (∀ ch ∈ acc, ¬ ch.isWhitespace) →
    ∀ w ∈ splitWs cs acc, w ≠ "" ∧ ∀ ch ∈ w.data, ¬ ch.isWhitespace := by
  induction cs with
  | nil =>
    intro acc hacc w hw
    unfold splitWs at hw
    split at hw
    · simp at hw
    · rename_i hne
      simp only [List.mem_singleton] at hw
      subst hw
      refine ⟨mk_ne_empty _ (by simpa using hne), fun ch hch => hacc ch (by simpa using hch)⟩
  | cons c cs ih =>
    intro acc hacc w hw
    unfold splitWs at hw
    split at hw
    · split at hw
      · exact ih [] (by simp) w hw
      · rename_i hne
        rcases List.mem_cons.mp hw with rfl | hw
        · refine ⟨mk_ne_empty _ (by simpa using hne), fun ch hch => hacc ch (by simpa using hch)⟩
        · exact ih [] (by simp) w hw
    · rename_i hc
      refine ih (c :: acc) ?_ w hw
      intro ch hch
      rcases List.mem_cons.mp hch with rfl | hch
      · exact hc
      · exact hacc ch hch

theorem words_spec (s : String) :
    ∀ w ∈ words s, w ≠ "" ∧ ∀ ch ∈ w.data, ¬ ch.isWhitespace :=
  splitWs_spec s.data [] (by simp)

theorem splitSpAux_no_space (cs : List Char) :
    ∀ acc, (∀ ch ∈ cs, ch ≠ ' ') → splitSpAux cs acc = [String.mk (acc.reverse ++ cs)] := by
  induction cs with
  | nil => intro acc _; simp [splitSpAux]
  | cons c cs ih =>
    intro acc hcs
    show (if c = ' ' then String.mk acc.reverse :: splitSpAux cs []
      else splitSpAux cs (c :: acc)) = _
    rw [if_neg (hcs c (List.mem_cons_self c cs))]
    rw [ih (c :: acc) (fun ch hch => hcs ch (List.mem_cons_of_mem c hch))]
    simp

theorem splitSpAux_break (w : List Char) (hw : ∀ ch ∈ w, ch ≠ ' ') :
    ∀ (rest acc : List Char),
    splitSpAux (w ++ ' ' :: rest) acc = String.mk (acc.reverse ++ w) :: splitSpAux rest [] := by
  induction w with
  | nil =>
    intro rest acc
    simp only [List.nil_append]
    show (if ' ' = ' ' then String.mk acc.reverse :: splitSpAux rest []
      else splitSpAux rest (' ' :: acc)) = _
    rw [if_pos rfl]
    simp
  | cons c cw ih =>
    intro rest acc
    have hc : c ≠ ' ' := hw c (List.mem_cons_self c cw)
    simp only [List.cons_append]
    show (if c = ' ' then String.mk acc.reverse :: splitSpAux (cw ++ ' ' :: rest) []
      else splitSpAux (cw ++ ' ' :: rest) (c :: acc)) = _
    rw [if_neg hc, ih (fun ch hch => hw ch (List.mem_cons_of_mem c hch)) rest (c :: acc)]
    simp

theorem splitSp_joinW (g : List String) (hg : g ≠ [])
    (hw : ∀ w ∈ g, w ≠ "" ∧ ∀ ch ∈ w.data, ch ≠ ' ') : splitSp (joinW g) = g := by
  induction g with
  | nil => exact absurd rfl hg
  | cons w g ih =>
    cases g with
    | nil =>
      show splitSpAux (joinW [w]).data [] = [w]
      have hjw : joinW [w] = w := rfl
      rw [hjw, splitSpAux_no_space w.data [] (hw w (List.mem_cons_self w [])).2]
      simp
    | cons v g =>
      rw [joinW_cons_cons w v g]
      show splitSpAux (w ++ " " ++ joinW (v :: g)).data [] = _
      have hd : (w ++ " " ++ joinW (v :: g)).data = w.data ++ ' ' :: (joinW (v :: g)).data := by
        simp [String.data_append]
      rw [hd, splitSpAux_break w.data (hw w (List.mem_cons_self w _)).2 _ []]
      have ihv := ih (by simp) (fun u hu => hw u (List.mem_cons_of_mem w hu))
      have hsp : splitSpAux (joinW (v :: g)).data [] = v :: g := ihv
      rw [hsp]
      simp

/-! ## Text wrap: the loop and its word-group view -/

theorem wrapLoop_nil (measure : String → ℚ) (maxWidth : ℚ) (cur : String) (lines : List String) :
    wrapLoop measure maxWidth [] cur lines = if cur ≠ "" then lines ++ [cur] else lines := rfl

theorem wrapLoop_cons (measure : String → ℚ) (maxWidth : ℚ) (w : String) (ws : List String)
    (cur : String) (lines : List String) :
    wrapLoop measure maxWidth (w :: ws) cur lines =
      if measure (if cur ≠ "" then cur ++ " " ++ w else w) ≤ maxWidth ∨ cur = "" then
        wrapLoop measure maxWidth ws (if cur ≠ "" then cur ++ " " ++ w else w) lines
      else wrapLoop measure maxWidth ws w (lines ++ [cur]) := rfl

theorem wrapGroups_nil (measure : String → ℚ) (maxWidth : ℚ) (cur : List String) :
    wrapGroups measure maxWidth [] cur = if cur = [] then [] else [cur] := rfl

theorem wrapGroups_cons (measure : String → ℚ) (maxWidth : ℚ) (w : String) (ws cur : List String) :
    wrapGroups measure maxWidth (w :: ws) cur =
      if measure (joinW (cur ++ [w])) ≤ maxWidth ∨ cur = [] then
        wrapGroups measure maxWidth ws (cur ++ [w])
      else cur :: wrapGroups measure maxWidth ws [w] := rfl

theorem wrapLoop_eq_groups (measure : String → ℚ) (maxWidth : ℚ) :
    ∀ (ws cur lines : List String), (∀ w ∈ ws, w ≠ "") → (∀ w ∈ cur, w ≠ "") →
    wrapLoop measure maxWidth ws (joinW cur) lines
      = lines ++ (wrapGroups measure maxWidth ws cur).map joinW := by
  intro ws
  induction ws with
  | nil =>
    intro cur lines _ hcur
    cases cur with
    | nil => simp [wrapLoop_nil, wrapGroups_nil, joinW]
    | cons c cs =>
      have hne := joinW_ne_empty c cs (hcur c (List.mem_cons_self c cs))
      simp [wrapLoop_nil, wrapGroups_nil, hne]
  | cons w ws ih =>
    intro cur lines hws hcur
    have hwme : w ≠ "" := hws w (List.mem_cons_self w ws)
    have hws' : ∀ u ∈ ws, u ≠ "" := fun u hu => hws u (List.mem_cons_of_mem w hu)
    rw [wrapLoop_cons, wrapGroups_cons]
    cases cur with
    | nil =>
      rw [if_pos (Or.inr rfl), if_pos (Or.inr (show joinW [] = "" from rfl))]
      rw [if_neg (show ¬ joinW [] ≠ "" by simp [joinW])]
      have hone : ∀ u ∈ ([w] : List String), u ≠ "" := by
        intro u hu; simp at hu; subst hu; exact hwme
      have := ih [w] lines hws' hone
      rw [show joinW [w] = w from rfl] at this
      rw [this]
      rfl
    | cons c cs =>
      have hcne : joinW (c :: cs) ≠ "" := joinW_ne_empty c cs (hcur c (List.mem_cons_self c cs))
      rw [if_pos hcne,
        show joinW (c :: cs) ++ " " ++ w = joinW ((c :: cs) ++ [w]) from
          (joinW_append_singleton (c :: cs) w (by simp)).symm]
      by_cases hm : measure (joinW ((c :: cs) ++ [w])) ≤ maxWidth
      · rw [if_pos (Or.inl hm), if_pos (Or.inl hm)]
        have hcur' : ∀ u ∈ (c :: cs) ++ [w], u ≠ "" := by
          intro u hu
          rcases List.mem_append.mp hu with hu | hu
          · exact hcur u hu
          · simp at hu; subst hu; exact hwme
        exact ih ((c :: cs) ++ [w]) lines hws' hcur'
      · rw [if_neg (by push_neg; exact ⟨lt_of_not_le hm, hcne⟩),
          if_neg (by push_neg; exact ⟨lt_of_not_le hm, by simp⟩)]
        have hone : ∀ u ∈ ([w] : List String), u ≠ "" := by
          intro u hu; simp at hu; subst hu; exact hwme
        have := ih [w] (lines ++ [joinW (c :: cs)]) hws' hone
        rw [show joinW [w] = w from rfl] at this
        rw [this]
        simp

theorem getQuoteLines_eq_groups (text : String) (measure : String → ℚ) (maxWidth : ℚ)
    (h : jsTrim text ≠ "") :
    getQuoteLines text measure maxWidth
      = (wrapGroups measure maxWidth (words (jsTrim text)) []).map joinW := by
  unfold getQuoteLines
  rw [if_neg h]
  have := wrapLoop_eq_groups measure maxWidth (words (jsTrim text)) [] []
    (fun w hw => (words_spec (jsTrim text) w hw).1) (by simp)
  rw [show joinW [] = "" from rfl] at this
  simpa using this

theorem wrapGroups_flatten (measure : String → ℚ) (maxWidth : ℚ) :
    ∀ ws cur : List String, (wrapGroups measure maxWidth ws cur).flatten = cur ++ ws := by
  intro ws
  induction ws with
  | nil =>
    intro cur
    rw [wrapGroups_nil]
    split
    · rename_i hc; subst hc; rfl
    · simp
  | cons w ws ih =>
    intro cur
    rw [wrapGroups_cons]
    split
    · rw [ih (cur ++ [w])]; simp
    · rw [List.flatten_cons, ih [w]]; simp

theorem wrapGroups_mem (measure : String → ℚ) (maxWidth : ℚ) :
    ∀ (ws cur : List String), (1 < cur.length → measure (joinW cur) ≤ maxWidth) →
    ∀ g ∈ wrapGroups measure maxWidth ws cur,
      g ≠ [] ∧ (1 < g.length → measure (joinW g) ≤ maxWidth) := by
  intro ws
  induction ws with
  | nil =>
    intro cur hinv g hg
    rw [wrapGroups_nil] at hg
    split at hg
    · simp at hg
    · rename_i hc
      simp only [List.mem_singleton] at hg
      subst hg
      exact ⟨hc, hinv⟩
  | cons w ws ih =>
    intro cur hinv g hg
    rw [wrapGroups_cons] at hg
    split at hg
    · rename_i hcond
      refine ih (cur ++ [w]) ?_ g hg
      intro _
      rcases hcond with hm | hc
      · exact hm
      · subst hc; simp at *
    · rename_i hcond
      push_neg at hcond
      rcases List.mem_cons.mp hg with rfl | hg
      · exact ⟨hcond.2, hinv⟩
      · exact ih [w] (by simp) g hg

theorem wrapGroups_chain (measure : String → ℚ) (maxWidth : ℚ)
    (hmono : ∀ s t, measure s ≤ measure (s ++ t)) :
    ∀ (rest cur : List String), cur ≠ [] →
    measure (joinW (cur ++ rest)) ≤ maxWidth →
    wrapGroups measure maxWidth rest cur = [cur ++ rest] := by
  intro rest
  induction rest with
  | nil =>
    intro cur hc hfit
    rw [wrapGroups_nil, if_neg hc]
    simp
  | cons w rest ih =>
    intro cur hc hfit
    have hfit1 : measure (joinW (cur ++ [w])) ≤ maxWidth := by
      obtain ⟨t, ht⟩ := joinW_append (cur ++ [w]) rest (by simp)
      calc measure (joinW (cur ++ [w])) ≤ measure (joinW (cur ++ [w]) ++ t) := hmono _ t
        _ = measure (joinW ((cur ++ [w]) ++ rest)) := by rw [ht]
        _ = measure (joinW (cur ++ w :: rest)) := by simp
        _ ≤ maxWidth := hfit
    rw [wrapGroups_cons, if_pos (Or.inl hfit1), ih (cur ++ [w]) (by simp)
      (by simpa using hfit)]
    simp

theorem wrapGroups_bigword_start (measure : String → ℚ) (maxWidth : ℚ) (w : String)
    (hmonoR : ∀ s t, measure s ≤ measure (s ++ t)) (hbig : maxWidth < measure w) :
    ∀ rest : List String, [w] ∈ wrapGroups measure maxWidth rest [w] := by
  intro rest
  cases rest with
  | nil => rw [wrapGroups_nil]; simp
  | cons v rest =>
    rw [wrapGroups_cons]
    have hwv : measure w ≤ measure (joinW ([w] ++ [v])) := by
      rw [show ([w] ++ [v] : List String) = [w, v] from rfl, joinW_cons_cons,
        show joinW [v] = v from rfl, String.append_assoc]
      exact hmonoR w (" " ++ v)
    rw [if_neg (by push_neg; exact ⟨by calc maxWidth < measure w := hbig
      _ ≤ _ := hwv, by simp⟩)]
    exact List.mem_cons_self _ _

theorem wrapGroups_bigword (measure : String → ℚ) (maxWidth : ℚ) (w : String)
    (hmonoR : ∀ s t, measure s ≤ measure (s ++ t))
    (hmonoL : ∀ s t, measure s ≤ measure (t ++ s)) (hbig : maxWidth < measure w) :
    ∀ (rest cur : List String), w ∈ rest → [w] ∈ wrapGroups measure maxWidth rest cur := by
  intro rest
  induction rest with
  | nil => intro cur hw; simp at hw
  | cons v rest ih =>
    intro cur hw
    rw [wrapGroups_cons]
    rcases List.mem_cons.mp hw with rfl | hw
    · cases cur with
      | nil =>
        rw [if_pos (Or.inr rfl)]
        exact wrapGroups_bigword_start measure maxWidth w hmonoR hbig rest
      | cons c cs =>
        have hcm : measure w ≤ measure (joinW ((c :: cs) ++ [w])) := by
          rw [joinW_append_singleton (c :: cs) w (by simp)]
          exact hmonoL w (joinW (c :: cs) ++ " ")
        rw [if_neg (by push_neg; exact ⟨by calc maxWidth < measure w := hbig
          _ ≤ _ := hcm, by simp⟩)]
        exact List.mem_cons_of_mem _ (wrapGroups_bigword_start measure maxWidth w hmonoR hbig rest)
    · split
      · exact ih _ hw
      · exact List.mem_cons_of_mem _ (ih [v] hw)

theorem map_id_of_mem {α : Type} (l : List α) (f : α → α) (h : ∀ x ∈ l, f x = x) :
    l.map f = l := by
  induction l with
  | nil => rfl
  | cons a l ih =>
    rw [List.map_cons, h a (List.mem_cons_self a l),
      ih (fun x hx => h x (List.mem_cons_of_mem a hx))]

theorem not_ws_ne_space (ch : Char) (h : ¬ ch.isWhitespace) : ch ≠ ' ' := by
  intro hc
  subst hc
  exact h (by decide)

theorem wrapGroups_words_splitSp (text : String) (measure : String → ℚ) (maxWidth : ℚ) :
    ∀ g ∈ wrapGroups measure maxWidth (words (jsTrim text)) [], splitSp (joinW g) = g := by
  intro g hg
  have hmem := wrapGroups_mem measure maxWidth (words (jsTrim text)) []
    (fun h => absurd h (by simp)) g hg
  refine splitSp_joinW g hmem.1 (fun w hw => ?_)
  have hwm : w ∈ words (jsTrim text) := by
    have : w ∈ (wrapGroups measure maxWidth (words (jsTrim text)) []).flatten :=
      List.mem_flatten.mpr ⟨g, hg, hw⟩
    rwa [wrapGroups_flatten, List.nil_append] at this
  obtain ⟨hne, hchars⟩ := words_spec (jsTrim text) w hwm
  exact ⟨hne, fun ch hch => not_ws_ne_space ch (hchars ch hch)⟩

/-- C10: the wrap never drops, duplicates, reorders or alters a word — splitting
each returned line back on single spaces and concatenating in line order yields
exactly the whitespace-separated words of the trimmed input, and every returned
line is a non-empty string. -/
theorem getQuoteLines_preserves_words (text : String) (measure : String → ℚ) (maxWidth : ℚ) :
    ((getQuoteLines text measure maxWidth).map splitSp).flatten = words (jsTrim text) ∧
    ∀ ln ∈ getQuoteLines text measure maxWidth, ln ≠ "" := by
  by_cases hc : jsTrim text = ""
  · refine ⟨?_, ?_⟩
    · unfold getQuoteLines
      rw [if_pos hc, hc]
      rfl
    · unfold getQuoteLines
      rw [if_pos hc]
      simp
  · rw [getQuoteLines_eq_groups text measure maxWidth hc]
    refine ⟨?_, ?_⟩
    · rw [List.map_map,
        map_id_of_mem _ (splitSp ∘ joinW)
          (fun g hg => wrapGroups_words_splitSp text measure maxWidth g hg),
        wrapGroups_flatten, List.nil_append]
    · intro ln hln
      obtain ⟨g, hg, rfl⟩ := List.mem_map.mp hln
      have hmem := wrapGroups_mem measure maxWidth (words (jsTrim text)) []
        (fun h => absurd h (by simp)) g hg
      obtain ⟨c, cs, rfl⟩ := List.exists_cons_of_ne_nil hmem.1
      have hcw : c ∈ words (jsTrim text) := by
        have : c ∈ (wrapGroups measure maxWidth (words (jsTrim text)) []).flatten :=
          List.mem_flatten.mpr ⟨c :: cs, hg, List.mem_cons_self c cs⟩
        rwa [wrapGroups_flatten, List.nil_append] at this
      exact joinW_ne_empty c cs (words_spec (jsTrim text) c hcw).1

theorem getQuoteLines_preserves_words_witness :
    ((getQuoteLines "hello  to the world" (fun s => (s.data.length : ℚ)) 8).map
      splitSp).flatten = words (jsTrim "hello  to the world") ∧
    ("hello to" ∈ getQuoteLines "hello  to the world" (fun s => (s.data.length : ℚ)) 8
      ∧ "hello to" ≠ "") :=
  ⟨(getQuoteLines_preserves_words "hello  to the world" (fun s => (s.data.length : ℚ)) 8).1,
    by decide,
    (getQuoteLines_preserves_words "hello  to the world" (fun s => (s.data.length : ℚ)) 8).2
      "hello to" (by decide)⟩

/-- C6 (counterexample): the claim quantifies over every width-measurement
function, but with a non-monotone measure a word wider than `maxWidth` need
not be placed alone on its line: measuring "big" as 100 and everything else
as 0, with maxWidth 10, the wrap of "big x" yields the single multi-word line
"big x", so the over-wide word "big" shares its line. -/
theorem getQuoteLines_bigword_counterexample :
    ((10 : ℚ) < (fun s => if s = "big" then (100 : ℚ) else 0) "big"
      ∧ "big" ∈ words (jsTrim "big x"))
    ∧ getQuoteLines "big x" (fun s => if s = "big" then (100 : ℚ) else 0) 10 = ["big x"]
    ∧ "big" ∉ getQuoteLines "big x" (fun s => if s = "big" then (100 : ℚ) else 0) 10 := by
  decide

/-- C6 (amended): every returned line holding more than one word measures at
most `maxWidth`, for an arbitrary measure; and when the measure is monotone
under concatenation on both sides, a word measuring more than `maxWidth` is
placed alone, unsplit, as a line of its own. -/
theorem getQuoteLines_line_widths (text : String) (measure : String → ℚ) (maxWidth : ℚ) :
    (∀ ln ∈ getQuoteLines text measure maxWidth,
      1 < (splitSp ln).length → measure ln ≤ maxWidth) ∧
    ((∀ s t, measure s ≤ measure (s ++ t)) → (∀ s t, measure s ≤ measure (t ++ s)) →
      ∀ w ∈ words (jsTrim text), maxWidth < measure w →
        w ∈ getQuoteLines text measure maxWidth) := by
  constructor
  · intro ln hln hlong
    by_cases hc : jsTrim text = ""
    · unfold getQuoteLines at hln
      rw [if_pos hc] at hln
      simp at hln
    · rw [getQuoteLines_eq_groups text measure maxWidth hc] at hln
      obtain ⟨g, hg, rfl⟩ := List.mem_map.mp hln
      rw [wrapGroups_words_splitSp text measure maxWidth g hg] at hlong
      exact (wrapGroups_mem measure maxWidth (words (jsTrim text)) []
        (fun h => absurd h (by simp)) g hg).2 hlong
  · intro hmonoR hmonoL w hw hbig
    by_cases hc : jsTrim text = ""
    · rw [hc] at hw
      simp [words, splitWs] at hw
    · rw [getQuoteLines_eq_groups text measure maxWidth hc]
      have : [w] ∈ wrapGroups measure maxWidth (words (jsTrim text)) [] :=
        wrapGroups_bigword measure maxWidth w hmonoR hmonoL hbig (words (jsTrim text)) [] hw
      exact List.mem_map.mpr ⟨[w], this, rfl⟩

theorem lenQ_monoR (s t : String) :
    ((s.data.length : ℚ)) ≤ (((s ++ t).data.length : ℚ)) := by
  rw [String.data_append, List.length_append]
  exact_mod_cast Nat.le_add_right s.data.length t.data.length

theorem lenQ_monoL (s t : String) :
    ((s.data.length : ℚ)) ≤ (((t ++ s).data.length : ℚ)) := by
  rw [String.data_append, List.length_append]
  exact_mod_cast Nat.le_add_left s.data.length t.data.length

theorem getQuoteLines_line_widths_witness :
    ("aa bb" ∈ getQuoteLines "aa bb cc" (fun s => (s.data.length : ℚ)) 5
      ∧ 1 < (splitSp "aa bb").length
      ∧ (fun s : String => (s.data.length : ℚ)) "aa bb" ≤ 5)
    ∧ ("wide" ∈ words (jsTrim "wide x")
      ∧ (3 : ℚ) < (fun s : String => (s.data.length : ℚ)) "wide"
      ∧ "wide" ∈ getQuoteLines "wide x" (fun s => (s.data.length : ℚ)) 3) :=
  ⟨⟨by decide, by decide,
    (getQuoteLines_line_widths "aa bb cc" (fun s => (s.data.length : ℚ)) 5).1
      "aa bb" (by decide) (by decide)⟩,
    by decide, by decide,
    (getQuoteLines_line_widths "wide x" (fun s => (s.data.length : ℚ)) 3).2
      lenQ_monoR lenQ_monoL "wide" (by decide) (by decide)⟩

/-- C7 (counterexample): the claim fails in two ways.  A text whose words are
separated by more than one space is returned with the separators collapsed, so
the single line differs from the trimmed input ("a  b" wraps to ["a b"]); and
with a non-monotone measure a text measuring under `maxWidth` can still break
into two lines, because an intermediate candidate measures over the limit. -/
theorem getQuoteLines_one_line_counterexample :
    ((fun _ : String => (0 : ℚ)) "a  b" ≤ 10
      ∧ getQuoteLines "a  b" (fun _ => 0) 10 ≠ [jsTrim "a  b"])
    ∧ ((fun s => if s = "a b" then (100 : ℚ) else 0) "a b c" ≤ 10
      ∧ (getQuoteLines "a b c" (fun s => if s = "a b" then (100 : ℚ) else 0) 10).length ≠ 1) := by
  decide

/-- C7 (amended): when the trimmed text is single-space normalized (it equals
its own words rejoined), the measure is monotone under right concatenation,
and the trimmed text measures within `maxWidth`, the wrap returns exactly one
line equal to the trimmed text. -/
theorem getQuoteLines_one_line (text : String) (measure : String → ℚ) (maxWidth : ℚ)
    (hmono : ∀ s t, measure s ≤ measure (s ++ t))
    (hne : jsTrim text ≠ "")
    (hnorm : jsTrim text = joinW (words (jsTrim text)))
    (hfit : measure (jsTrim text) ≤ maxWidth) :
    getQuoteLines text measure maxWidth = [jsTrim text] := by
  rw [getQuoteLines_eq_groups text measure maxWidth hne]
  obtain ⟨w, ws, hws⟩ : ∃ w ws, words (jsTrim text) = w :: ws := by
    cases hw : words (jsTrim text) with
    | nil => rw [hw] at hnorm; exact absurd hnorm hne
    | cons w ws => exact ⟨w, ws, rfl⟩
  rw [hws]
  rw [wrapGroups_cons, if_pos (Or.inr rfl)]
  rw [wrapGroups_chain measure maxWidth hmono ws ([] ++ [w]) (by simp) (by
    rw [show (([] ++ [w]) ++ ws : List String) = w :: ws from by simp, ← hws, ← hnorm]
    exact hfit)]
  rw [show (([] ++ [w]) ++ ws : List String) = w :: ws from by simp, ← hws]
  simp only [List.map_cons, List.map_nil]
  rw [← hnorm]

theorem getQuoteLines_one_line_witness :
    (jsTrim " ab cd " ≠ ""
      ∧ jsTrim " ab cd " = joinW (words (jsTrim " ab cd "))
      ∧ (fun s : String => (s.data.length : ℚ)) (jsTrim " ab cd ") ≤ 9)
    ∧ getQuoteLines " ab cd " (fun s => (s.data.length : ℚ)) 9 = [jsTrim " ab cd "] :=
  ⟨⟨by decide, by decide, by decide⟩,
    getQuoteLines_one_line " ab cd " (fun s => (s.data.length : ℚ)) 9
      lenQ_monoR (by decide) (by decide) (by decide)⟩

/-! ## Quote selection -/

/-- C3 (counterexample): with duplicate entries the index-advance trick fails.
The corpus ["b", "a", "a"] has two distinct strings; a first call drawing
index 2 returns "a" and stores it; a second call drawing index 1 draws "a"
again, `indexOf` finds the first "a" (index 1), and advancing yields
`quotes[2] = "a"` — the same string twice in a row. -/
theorem getRandomQuote_repeat_counterexample :
    ((["b", "a", "a"] : List String).length = 3 ∧ "a" ≠ "b")
    ∧ getRandomQuote ["b", "a", "a"] "" 2 = ("a", "a")
    ∧ (getRandomQuote ["b", "a", "a"] "a" 1).1 = "a" := by
  decide

/-- C3 (amended): when the corpus entries are pairwise distinct and there are
at least two of them, `getRandomQuote` never returns the stored last quote,
whatever the draw: either the draw misses the last quote, or `indexOf`
recovers exactly the drawn index and the advance moves to a different,
hence distinct, entry. -/
theorem getRandomQuote_no_repeat (quotes : List String) (lastQuote : String) (draw : ℕ)
    (hnd : quotes.Nodup) (hlen : 2 ≤ quotes.length) (hdraw : draw < quotes.length) :
    (getRandomQuote quotes lastQuote draw).1 ≠ lastQuote := by
  unfold getRandomQuote
  rw [if_neg (by omega), if_neg (by omega)]
  have hget : quotes.getD draw "" = quotes[draw] := List.getD_eq_getElem quotes "" hdraw
  by_cases hEq : quotes.getD draw "" = lastQuote
  · rw [if_pos hEq]
    have hidx : quotes.indexOf (quotes.getD draw "") = draw := by
      rw [hget]
      exact List.indexOf_getElem hnd draw hdraw
    rw [hidx]
    show quotes.getD ((draw + 1) % quotes.length) "" ≠ lastQuote
    have hne : (draw + 1) % quotes.length ≠ draw := by
      rcases Nat.lt_or_ge (draw + 1) quotes.length with hlt | hge
      · rw [Nat.mod_eq_of_lt hlt]; omega
      · have : draw + 1 = quotes.length := by omega
        rw [this, Nat.mod_self]; omega
    have hlt2 : (draw + 1) % quotes.length < quotes.length :=
      Nat.mod_lt _ (by omega)
    rw [List.getD_eq_getElem quotes "" hlt2]
    intro hcon
    apply hne
    have : quotes[(draw + 1) % quotes.length] = quotes[draw] := by
      rw [hcon, ← hEq, hget]
    exact (List.Nodup.getElem_inj_iff hnd).mp this
  · rw [if_neg hEq]
    exact hEq

theorem getRandomQuote_no_repeat_witness :
    ((["x", "y"] : List String).Nodup ∧ 2 ≤ (["x", "y"] : List String).length ∧ 0 < 2)
    ∧ (getRandomQuote ["x", "y"] "x" 0).1 ≠ "x" :=
  ⟨by decide, getRandomQuote_no_repeat ["x", "y"] "x" 0 (by decide) (by decide) (by decide)⟩

/-! ## Polaroid layout -/

/-- C5: for positive source dimensions the layout satisfies the stated integer
geometry exactly: `photoHeight = round(440 / sourceWidth * sourceHeight)`,
`canvasWidth = 440 + 2 * 12`, and `canvasHeight = photoHeight + 2 * 12 + 60 +
quoteBlockHeight` with `quoteBlockHeight = 22 * lines + 10 + 12` when the
wrapped quote has at least one line and 0 otherwise; in particular an 880x440
source scales to `photoHeight = 220`. -/
theorem renderPolaroid_geometry (sourceWidth sourceHeight : ℕ)
    (_hw : 0 < sourceWidth) (_hh : 0 < sourceHeight)
    (measure : String → ℚ) (quoteText : String) :
    (renderPolaroid sourceWidth sourceHeight measure quoteText).photoHeight
      = jsRound ((440 : ℚ) / (sourceWidth : ℚ) * (sourceHeight : ℚ)) ∧
    (renderPolaroid sourceWidth sourceHeight measure quoteText).canvasWidth = 440 + 2 * 12 ∧
    (renderPolaroid sourceWidth sourceHeight measure quoteText).canvasHeight
      = (renderPolaroid sourceWidth sourceHeight measure quoteText).photoHeight + 2 * 12 + 60
        + (if 1 ≤ (renderPolaroid sourceWidth sourceHeight measure quoteText).quoteLines.length
          then 22 * ((renderPolaroid sourceWidth sourceHeight measure quoteText).quoteLines.length : ℤ)
            + 10 + 12
          else 0) ∧
    (renderPolaroid 880 440 measure quoteText).photoHeight = 220 := by
  refine ⟨rfl, rfl, ?_, ?_⟩
  · have hL : (renderPolaroid sourceWidth sourceHeight measure quoteText).quoteLines
        = getQuoteLines quoteText measure ((440 : ℚ) - 24) := rfl
    have hP : (renderPolaroid sourceWidth sourceHeight measure quoteText).quotePadding
        = (if (getQuoteLines quoteText measure ((440 : ℚ) - 24)).length ≠ 0 then
            quoteLineHeight * (getQuoteLines quoteText measure ((440 : ℚ) - 24)).length
              + quoteBlockPaddingTop + quoteBlockPaddingBottom
          else 0) := rfl
    have hC : (renderPolaroid sourceWidth sourceHeight measure quoteText).canvasHeight
        = (renderPolaroid sourceWidth sourceHeight measure quoteText).photoHeight
          + (framePadding : ℤ) * 2 + (frameBottom : ℤ)
          + ((renderPolaroid sourceWidth sourceHeight measure quoteText).quotePadding : ℤ) := rfl
    rw [hC, hP, hL]
    rcases Nat.eq_zero_or_pos (getQuoteLines quoteText measure ((440 : ℚ) - 24)).length
      with hz | hpos
    · rw [if_neg (by omega), if_neg (by omega)]
      unfold framePadding frameBottom
      push_cast
      ring
    · rw [if_pos (by omega), if_pos (by omega)]
      unfold framePadding frameBottom quoteLineHeight quoteBlockPaddingTop quoteBlockPaddingBottom
      push_cast
      ring
  · show jsRound ((440 : ℚ) / ((880 : ℕ) : ℚ) * ((440 : ℕ) : ℚ)) = 220
    decide

theorem renderPolaroid_geometry_witness :
    (0 < 880 ∧ 0 < 440)
    ∧ (renderPolaroid 880 440 (fun _ => 0) "").photoHeight
        = jsRound ((440 : ℚ) / ((880 : ℕ) : ℚ) * ((440 : ℕ) : ℚ))
    ∧ (renderPolaroid 880 440 (fun _ => 0) "").canvasWidth = 440 + 2 * 12
    ∧ (renderPolaroid 880 440 (fun _ => 0) "").photoHeight = 220 :=
  ⟨by decide,
    (renderPolaroid_geometry 880 440 (by decide) (by decide) (fun _ => 0) "").1,
    (renderPolaroid_geometry 880 440 (by decide) (by decide) (fun _ => 0) "").2.1,
    (renderPolaroid_geometry 880 440 (by decide) (by decide) (fun _ => 0) "").2.2.2⟩
